import Mathlib

set_option maxRecDepth 20000

/-!
Verification of the marching-cubes core (`src/marching_cubes_impl.rs`):
the configuration classifier and triangle dispatcher `march_cube`, the
edge-crossing offset `get_offset`, and the generic `interpolate`.

Scalars (`f32` in the source) are modelled as either NaN or an exact
rational; all arithmetic appearing in the verified claims is exact at the
inputs considered.  The 256-entry connectivity table
`TRIANGLE_CONNECTION` lives in the external `marching_cubes_tables`
crate and is modelled abstractly as a function `Fin 256 → Fin 16 → Int`
together with the invariants its documentation states.
-/

/-- A scalar density value as the classifier sees it: either NaN or a
finite value, modelled exactly as a rational. -/
inductive F where
  | nan : F
  | fin (q : ℚ) : F
deriving DecidableEq

/-- The Rust comparison `x <= 0.0` on an `f32`: `false` when `x` is NaN,
otherwise the ordinary comparison. -/
def F.le0 : F → Bool
  | .nan => false
  | .fin q => decide (q ≤ 0)

/-- IEEE negation of a scalar (NaN stays NaN; `-0.0` is identified with
`0.0`, which is faithful for the `<= 0.0` test since `-0.0 <= 0.0`). -/
def F.neg : F → F
  | .nan => .nan
  | .fin q => .fin (-q)

/-- The scalar is finite and strictly positive. -/
def F.pos : F → Prop
  | .nan => False
  | .fin q => 0 < q

/-- The scalar is finite and strictly negative. -/
def F.isNeg : F → Prop
  | .nan => False
  | .fin q => q < 0

/-- The scalar is finite and nonzero. -/
def F.nonzero : F → Prop
  | .nan => False
  | .fin q => q ≠ 0

/-- The configuration index computed from eight bits, one per corner:
the loop `for i in 0..8 { if b(i) { cube_index |= 1 << i } }`. -/
def indexOfBits (b : Fin 8 → Bool) : Nat :=
  (List.finRange 8).foldl (fun acc i => if b i then acc ||| (1 <<< i.val) else acc) 0

/-- The configuration classifier inside `march_cube`: bit `i` is set when
`values[i] <= 0.0`. -/
def cubeIndex (values : Fin 8 → F) : Nat :=
  (List.finRange 8).foldl
    (fun acc i => if (values i).le0 then acc ||| (1 <<< i.val) else acc) 0

theorem cubeIndex_eq_indexOfBits (values : Fin 8 → F) :
    cubeIndex values = indexOfBits (fun i => (values i).le0) := rfl

theorem indexOfBits_lt (b : Fin 8 → Bool) : indexOfBits b < 256 := by
  revert b; decide

theorem indexOfBits_testBit (b : Fin 8 → Bool) (i : Fin 8) :
    (indexOfBits b).testBit i.val = b i := by
  revert b i; decide

theorem indexOfBits_compl (b : Fin 8 → Bool) :
    indexOfBits (fun i => !(b i)) = 255 - indexOfBits b := by
  revert b; decide

theorem cubeIndex_lt (values : Fin 8 → F) : cubeIndex values < 256 :=
  indexOfBits_lt _

/-- The configuration index, bundled with its bound. -/
def configOf (values : Fin 8 → F) : Fin 256 :=
  ⟨cubeIndex values, cubeIndex_lt values⟩

/-- Modelled from the spec: the connectivity table `TRIANGLE_CONNECTION`
lives in the `marching_cubes_tables` crate, whose contents are not under
`src/`; it is modelled abstractly as 256 rows of 16 `i8` entries, and the
theorems that need them assume only its documented invariants (front-packed
triangles, sentinel `-1` padding from index 12, empty rows 0 and 255). -/
def Table : Type := Fin 256 → Fin 16 → Int

/-- Rust's `as usize` cast of an `i8` value (64-bit `usize`). -/
def i8ToUsize (v : Int) : Nat := (v % (2 : Int) ^ 64).toNat

/-- Index of entry `j` of triangle slot `i` within a 16-entry row:
`3 * i + j`. -/
def entryIdx (i : Fin 5) (j : Fin 3) : Fin 16 :=
  ⟨3 * i.val + j.val, by omega⟩

/-- The three callback arguments produced for one triangle slot, in table
order: `TRIANGLE_CONNECTION[cube_index][3*i + j] as usize` for `j = 0,1,2`. -/
def slotEdges (row : Fin 16 → Int) (i : Fin 5) : List Nat :=
  [i8ToUsize (row (entryIdx i 0)), i8ToUsize (row (entryIdx i 1)),
    i8ToUsize (row (entryIdx i 2))]

/-- The dispatcher loop over the remaining triangle slots: for each slot in
order, break when the slot's first entry is negative, otherwise emit the
slot's three edges and continue. -/
def marchSlots (row : Fin 16 → Int) : List (Fin 5) → List Nat
  | [] => []
  | i :: rest =>
    if row (entryIdx i 0) < 0 then []
    else slotEdges row i ++ marchSlots row rest

/-- Shallow embedding of `march_cube`: the sequence of edge indices passed
to `edge_func`, in invocation order.  The source loop runs `i in 0..5`. -/
def march_cube (table : Table) (values : Fin 8 → F) : List Nat :=
  marchSlots (table (configOf values)) (List.finRange 5)

/-- Number of triangle slots processed before the loop breaks. -/
def stopCount (row : Fin 16 → Int) : Nat :=
  ((List.finRange 5).takeWhile (fun i => !decide (row (entryIdx i 0) < 0))).length

theorem marchSlots_eq_takeWhile (row : Fin 16 → Int) (l : List (Fin 5)) :
    marchSlots row l
      = (l.takeWhile (fun i => !decide (row (entryIdx i 0) < 0))).flatMap
          (slotEdges row) := by
  induction l with
  | nil => rfl
  | cons i rest ih =>
    by_cases h : row (entryIdx i 0) < 0 <;>
      simp [marchSlots, List.takeWhile_cons, h, ih]

theorem marchSlots_getElem (row : Fin 16 → Int) (k : Nat)
    (hk : k < (marchSlots row (List.finRange 5)).length) :
    ∃ h16 : k < 16,
      (marchSlots row (List.finRange 5))[k]? = some (i8ToUsize (row ⟨k, h16⟩)) := by
  have e5 : (List.finRange 5) = [0, 1, 2, 3, 4] := by decide
  rw [e5] at hk ⊢
  by_cases h0 : row (entryIdx 0 0) < 0 <;>
  by_cases h1 : row (entryIdx 1 0) < 0 <;>
  by_cases h2 : row (entryIdx 2 0) < 0 <;>
  by_cases h3 : row (entryIdx 3 0) < 0 <;>
  by_cases h4 : row (entryIdx 4 0) < 0 <;>
  simp only [marchSlots, slotEdges, h0, h1, h2, h3, h4, if_true, if_false,
    List.length_append, List.length_cons, List.length_nil, List.cons_append,
    List.nil_append, ite_true, ite_false] at hk ⊢ <;>
  (interval_cases k <;> exact ⟨by omega, rfl⟩)

theorem marchSlots_length (row : Fin 16 → Int) :
    (marchSlots row (List.finRange 5)).length = 3 * stopCount row := by
  have e5 : (List.finRange 5) = [0, 1, 2, 3, 4] := by decide
  rw [stopCount, e5]
  by_cases h0 : row (entryIdx 0 0) < 0 <;>
  by_cases h1 : row (entryIdx 1 0) < 0 <;>
  by_cases h2 : row (entryIdx 2 0) < 0 <;>
  by_cases h3 : row (entryIdx 3 0) < 0 <;>
  by_cases h4 : row (entryIdx 4 0) < 0 <;>
  simp [marchSlots, slotEdges, List.takeWhile_cons, h0, h1, h2, h3, h4]

theorem stopCount_le_five (row : Fin 16 → Int) : stopCount row ≤ 5 := by
  have e5 : (List.finRange 5) = [0, 1, 2, 3, 4] := by decide
  rw [stopCount, e5]
  by_cases h0 : row (entryIdx 0 0) < 0 <;>
  by_cases h1 : row (entryIdx 1 0) < 0 <;>
  by_cases h2 : row (entryIdx 2 0) < 0 <;>
  by_cases h3 : row (entryIdx 3 0) < 0 <;>
  by_cases h4 : row (entryIdx 4 0) < 0 <;>
  simp [List.takeWhile_cons, h0, h1, h2, h3, h4]

theorem stopCount_le_four (row : Fin 16 → Int) (h : row (entryIdx 4 0) < 0) :
    stopCount row ≤ 4 := by
  have e5 : (List.finRange 5) = [0, 1, 2, 3, 4] := by decide
  rw [stopCount, e5]
  by_cases h0 : row (entryIdx 0 0) < 0 <;>
  by_cases h1 : row (entryIdx 1 0) < 0 <;>
  by_cases h2 : row (entryIdx 2 0) < 0 <;>
  by_cases h3 : row (entryIdx 3 0) < 0 <;>
  simp [List.takeWhile_cons, h0, h1, h2, h3, h]

theorem stopCount_spec (row : Fin 16 → Int) :
    (∀ i : Fin 5, i.val < stopCount row → 0 ≤ row (entryIdx i 0)) ∧
    (∀ i : Fin 5, i.val = stopCount row → row (entryIdx i 0) < 0) := by
  have e5 : (List.finRange 5) = [0, 1, 2, 3, 4] := by decide
  rw [stopCount, e5]
  by_cases h0 : row (entryIdx 0 0) < 0 <;>
  by_cases h1 : row (entryIdx 1 0) < 0 <;>
  by_cases h2 : row (entryIdx 2 0) < 0 <;>
  by_cases h3 : row (entryIdx 3 0) < 0 <;>
  by_cases h4 : row (entryIdx 4 0) < 0 <;>
  simp [List.takeWhile_cons, h0, h1, h2, h3, h4] <;>
  (try constructor) <;>
  first
  | (intro i hi; fin_cases i <;> simp_all)
  | (intro i; fin_cases i <;> simp_all)

/-- `get_offset`: fraction along the edge where the field crosses zero,
with the midpoint fallback when the endpoint densities are equal. -/
def get_offset (a b : ℚ) : ℚ :=
  let delta := b - a
  if delta = 0 then 0.5 else -a / delta

/-- `interpolate`: `a * (1 - t) + b * t` for any type with addition and
scalar multiplication by the fraction. -/
def interpolate {T : Type} [Add T] [HMul T ℚ T] (a b : T) (t : ℚ) : T :=
  a * (1 - t) + b * t

/-- A representative vector-like attribute type (component-wise addition,
scalar scaling), standing in for the source's generic `T`. -/
structure Vec3 where
  x : ℚ
  y : ℚ
  z : ℚ
deriving DecidableEq

def Vec3.add (u v : Vec3) : Vec3 := ⟨u.x + v.x, u.y + v.y, u.z + v.z⟩

def Vec3.scale (v : Vec3) (t : ℚ) : Vec3 := ⟨v.x * t, v.y * t, v.z * t⟩

instance : Add Vec3 := ⟨Vec3.add⟩

instance : HMul Vec3 ℚ Vec3 := ⟨Vec3.scale⟩

/-- A table whose rows are entirely sentinel entries; used to instantiate
hypotheses at a concrete, invariant-satisfying table. -/
def emptyTable : Table := fun _ _ => -1

/-- A table with the real `TRIANGLE_CONNECTION` row for configuration 1
(`[0, 8, 3, -1, …]`) and sentinel rows elsewhere. -/
def sampleTable : Table := fun c j =>
  if c.val = 1 then
    (if j.val = 0 then 0 else if j.val = 1 then 8 else if j.val = 2 then 3 else -1)
  else -1

/-- Densities with corner 0 inside and all other corners outside
(configuration 1). -/
def sampleValues : Fin 8 → F := fun i =>
  if i.val = 0 then F.fin (-1) else F.fin 1

/-- Densities that are all finite and nonzero, mixing signs. -/
def nonzeroValues : Fin 8 → F := fun i =>
  if i.val = 0 then F.fin (-2) else F.fin 3

theorem F.le0_eq_false_of_pos {f : F} (h : f.pos) : f.le0 = false := by
  cases f with
  | nan => rfl
  | fin q =>
    have hq : ¬(q ≤ 0) := not_le.2 h
    simp [F.le0, hq]

theorem F.le0_eq_true_of_isNeg {f : F} (h : f.isNeg) : f.le0 = true := by
  cases f with
  | nan => exact absurd h (by simp [F.isNeg])
  | fin q =>
    have hq : q ≤ 0 := le_of_lt h
    simp [F.le0, hq]

theorem march_cube_nil_of_sentinel (table : Table) (values : Fin 8 → F)
    (h : table (configOf values) (entryIdx 0 0) < 0) :
    march_cube table values = [] := by
  show marchSlots _ _ = []
  have e5 : (List.finRange 5) = [0, 1, 2, 3, 4] := by decide
  rw [e5]
  simp [marchSlots, h]

/-- C1: for every 8-element density array, `march_cube` (a total function
here, so termination is by construction) invokes the callback a number of
times that is a multiple of 3 and at most 12.  The hypothesis is the
connectivity table's documented padding invariant: entries past the fourth
triangle (index 12 onward) are the sentinel in every row. -/
theorem C1_callback_count (table : Table)
    (htab : ∀ c : Fin 256, table c (entryIdx 4 0) < 0)
    (values : Fin 8 → F) :
    (march_cube table values).length % 3 = 0 ∧
    (march_cube table values).length ≤ 12 := by
  have hl : (march_cube table values).length
      = 3 * stopCount (table (configOf values)) := marchSlots_length _
  have h4 : stopCount (table (configOf values)) ≤ 4 :=
    stopCount_le_four _ (htab _)
  omega

/-- C1 witness: the bounds hold at a concrete table and density array. -/
theorem C1_callback_count_witness :
    (march_cube sampleTable sampleValues).length % 3 = 0 ∧
    (march_cube sampleTable sampleValues).length ≤ 12 :=
  C1_callback_count sampleTable (by decide) sampleValues

/-- C2: bit `i` of the configuration index is set exactly when
`density[i] <= 0.0`, and a density equal to zero counts as inside. -/
theorem C2_classifier_bit (values : Fin 8 → F) (i : Fin 8) :
    (cubeIndex values).testBit i.val = (values i).le0 ∧
    (F.fin 0).le0 = true := by
  refine ⟨?_, by decide⟩
  rw [cubeIndex_eq_indexOfBits]
  exact indexOfBits_testBit _ i

/-- C3: the dispatcher stops at the first triangle slot whose first edge
index is the sentinel, it invokes the callback three times (in fixed table
order) for each earlier slot, and — under the table padding invariant —
at most 4 slots produce callbacks. -/
theorem C3_dispatch_structure (table : Table)
    (htab : ∀ c : Fin 256, table c (entryIdx 4 0) < 0)
    (values : Fin 8 → F) :
    stopCount (table (configOf values)) ≤ 4 ∧
    march_cube table values
      = ((List.finRange 5).takeWhile
          (fun i => !decide (table (configOf values) (entryIdx i 0) < 0))).flatMap
          (slotEdges (table (configOf values))) ∧
    (∀ i : Fin 5, i.val < stopCount (table (configOf values)) →
        0 ≤ table (configOf values) (entryIdx i 0)) ∧
    (∀ i : Fin 5, i.val = stopCount (table (configOf values)) →
        table (configOf values) (entryIdx i 0) < 0) :=
  ⟨stopCount_le_four _ (htab _), marchSlots_eq_takeWhile _ _,
    (stopCount_spec _).1, (stopCount_spec _).2⟩

/-- C3 witness: at a concrete table and density array the slot count is at
most 4 and the emitted edges are the single table triangle. -/
theorem C3_dispatch_structure_witness :
    stopCount (sampleTable (configOf sampleValues)) ≤ 4 ∧
    march_cube sampleTable sampleValues = [0, 8, 3] :=
  ⟨(C3_dispatch_structure sampleTable (by decide) sampleValues).1, by decide⟩

/-- C4: `get_offset` returns `0.5` when `b - a = 0`, and `-a / (b - a)`
otherwise. -/
theorem C4_get_offset_spec (a b : ℚ) :
    (b - a = 0 → get_offset a b = 0.5) ∧
    (b - a ≠ 0 → get_offset a b = -a / (b - a)) := by
  constructor <;> intro h <;> simp [get_offset, h]

/-- C4 witness: both branches at concrete inputs. -/
theorem C4_get_offset_spec_witness :
    get_offset 0 0 = 0.5 ∧ get_offset (-1) 3 = -(-1) / (3 - (-1)) :=
  ⟨(C4_get_offset_spec 0 0).1 (by norm_num),
    (C4_get_offset_spec (-1) 3).2 (by norm_num)⟩

/-- C5: `interpolate` computes `a * (1 - t) + b * t`, and at `t = 0` and
`t = 1` returns the endpoints, both for a scalar and for a vector-like
attribute type. -/
theorem C5_interpolate_spec (a b t : ℚ) (u v : Vec3) :
    interpolate a b t = a * (1 - t) + b * t ∧
    interpolate a b 0 = a ∧ interpolate a b 1 = b ∧
    interpolate u v (0 : ℚ) = u ∧ interpolate u v (1 : ℚ) = v := by
  refine ⟨rfl, by simp only [interpolate]; ring, by simp only [interpolate]; ring, ?_, ?_⟩ <;>
  · show Vec3.add (Vec3.scale _ _) (Vec3.scale _ _) = _
    cases u; cases v
    simp only [Vec3.add, Vec3.scale, Vec3.mk.injEq]
    refine ⟨by ring, by ring, by ring⟩

/-- C6 counterexample: with all densities exactly zero, negation leaves the
configuration index at 255, which differs from `255 - 255 = 0`. -/
theorem C6_counterexample :
    cubeIndex (fun _ : Fin 8 => (F.fin 0).neg)
      ≠ 255 - cubeIndex (fun _ : Fin 8 => F.fin 0) := by
  decide

/-- C6 (amended): when every density is finite and nonzero, negating all
densities maps the configuration index `k` to `255 - k`. -/
theorem C6_negation_complement (values : Fin 8 → F)
    (h : ∀ i, (values i).nonzero) :
    cubeIndex (fun i => (values i).neg) = 255 - cubeIndex values := by
  have hb : (fun i => ((values i).neg).le0) = fun i => !((values i).le0) := by
    funext i
    have hi := h i
    cases hv : values i with
    | nan => rw [hv] at hi; exact absurd hi (by simp [F.nonzero])
    | fin q =>
      rw [hv] at hi
      have hq : q ≠ 0 := hi
      simp only [F.neg, F.le0]
      rcases hq.lt_or_lt with hlt | hgt
      · have h1 : ¬(-q ≤ 0) := by linarith
        have h2 : q ≤ 0 := le_of_lt hlt
        simp [h1, h2]
      · have h1 : -q ≤ 0 := by linarith
        have h2 : ¬(q ≤ 0) := by linarith
        simp [h1, h2]
  calc cubeIndex (fun i => (values i).neg)
      = indexOfBits (fun i => ((values i).neg).le0) := rfl
    _ = indexOfBits (fun i => !((values i).le0)) := by rw [hb]
    _ = 255 - indexOfBits (fun i => (values i).le0) := indexOfBits_compl _
    _ = 255 - cubeIndex values := rfl

/-- C6 witness: the amended claim at a concrete nonzero density array. -/
theorem C6_negation_complement_witness :
    cubeIndex (fun i => (nonzeroValues i).neg) = 255 - cubeIndex nonzeroValues :=
  C6_negation_complement nonzeroValues
    (by intro i; fin_cases i <;> norm_num [nonzeroValues, F.nonzero])

/-- C7: strictly positive densities give configuration 0, strictly negative
densities give configuration 255, and in both cases no callback is invoked
(the hypotheses are the table's documented empty rows 0 and 255). -/
theorem C7_all_positive_negative (table : Table)
    (h0 : table ⟨0, by norm_num⟩ (entryIdx 0 0) < 0)
    (h255 : table ⟨255, by norm_num⟩ (entryIdx 0 0) < 0)
    (values : Fin 8 → F) :
    ((∀ i, (values i).pos) →
        cubeIndex values = 0 ∧ march_cube table values = []) ∧
    ((∀ i, (values i).isNeg) →
        cubeIndex values = 255 ∧ march_cube table values = []) := by
  constructor
  · intro hp
    have hb : (fun i => (values i).le0) = fun _ => false :=
      funext fun i => F.le0_eq_false_of_pos (hp i)
    have hc : cubeIndex values = 0 := by
      rw [cubeIndex_eq_indexOfBits, hb]; decide
    have hcfg : configOf values = (⟨0, by norm_num⟩ : Fin 256) := Fin.ext hc
    exact ⟨hc, march_cube_nil_of_sentinel table values (by rw [hcfg]; exact h0)⟩
  · intro hn
    have hb : (fun i => (values i).le0) = fun _ => true :=
      funext fun i => F.le0_eq_true_of_isNeg (hn i)
    have hc : cubeIndex values = 255 := by
      rw [cubeIndex_eq_indexOfBits, hb]; decide
    have hcfg : configOf values = (⟨255, by norm_num⟩ : Fin 256) := Fin.ext hc
    exact ⟨hc, march_cube_nil_of_sentinel table values (by rw [hcfg]; exact h255)⟩

/-- C7 witness: all-positive densities at a concrete table produce
configuration 0 and no callbacks. -/
theorem C7_all_positive_negative_witness :
    cubeIndex (fun _ : Fin 8 => F.fin 1) = 0 ∧
    march_cube sampleTable (fun _ : Fin 8 => F.fin 1) = [] :=
  (C7_all_positive_negative sampleTable (by decide) (by decide)
      (fun _ : Fin 8 => F.fin 1)).1
    (fun i => by norm_num [F.pos])

/-- C8: `march_cube` is deterministic — equal density arrays produce
identical callback sequences — and the `k`-th callback receives entry `k`
of the table row for the computed configuration. -/
theorem C8_deterministic_ordered (table : Table) (v w : Fin 8 → F)
    (hvw : ∀ i, v i = w i) (k : Nat)
    (hk : k < (march_cube table v).length) :
    march_cube table v = march_cube table w ∧
    ∃ h16 : k < 16,
      (march_cube table v)[k]?
        = some (i8ToUsize (table (configOf v) ⟨k, h16⟩)) := by
  have hv : v = w := funext hvw
  subst hv
  exact ⟨rfl, marchSlots_getElem _ k hk⟩

/-- C8 witness: at a concrete table and density array, callback 0 receives
entry 0 of the selected table row. -/
theorem C8_deterministic_ordered_witness :
    march_cube sampleTable sampleValues = march_cube sampleTable sampleValues ∧
    ∃ h16 : 0 < 16,
      (march_cube sampleTable sampleValues)[0]?
        = some (i8ToUsize (sampleTable (configOf sampleValues) ⟨0, h16⟩)) :=
  C8_deterministic_ordered sampleTable sampleValues sampleValues
    (fun _ => rfl) 0 (by decide)

/-- C9: the four concrete `get_offset` evaluations from the spec. -/
theorem C9_get_offset_values :
    get_offset 1 (-1) = 0.5 ∧ get_offset 0 0 = 0.5 ∧
    get_offset (-2) 2 = 0.5 ∧ get_offset (-1) 3 = 0.25 := by
  norm_num [get_offset]

/-- C10: a NaN density leaves its configuration bit clear, exactly as a
strictly positive density would, and `march_cube` behaves identically
(hence terminates) on the NaN array and on the array with the NaN replaced
by a positive density. -/
theorem C10_nan_outside (table : Table) (values : Fin 8 → F) (i : Fin 8)
    (h : values i = F.nan) :
    (cubeIndex values).testBit i.val = false ∧
    cubeIndex values = cubeIndex (Function.update values i (F.fin 1)) ∧
    march_cube table values
      = march_cube table (Function.update values i (F.fin 1)) := by
  have hbit : (cubeIndex values).testBit i.val = false := by
    rw [cubeIndex_eq_indexOfBits]
    rw [indexOfBits_testBit]
    show (values i).le0 = false
    rw [h]
    simp [F.le0]
  have hb : (fun j => (values j).le0)
      = fun j => ((Function.update values i (F.fin 1)) j).le0 := by
    funext j
    by_cases hj : j = i
    · subst hj
      rw [h, Function.update_same]
      show false = F.le0 (F.fin 1)
      simp [F.le0]
    · rw [Function.update_noteq hj]
  have hc : cubeIndex values = cubeIndex (Function.update values i (F.fin 1)) := by
    rw [cubeIndex_eq_indexOfBits, cubeIndex_eq_indexOfBits, hb]
  refine ⟨hbit, hc, ?_⟩
  show marchSlots (table (configOf values)) _ = marchSlots _ _
  rw [show configOf values = configOf (Function.update values i (F.fin 1)) from
    Fin.ext hc]

/-- C10 witness: the all-NaN density array at a concrete table. -/
theorem C10_nan_outside_witness :
    (cubeIndex (fun _ : Fin 8 => F.nan)).testBit (0 : Fin 8).val = false ∧
    cubeIndex (fun _ : Fin 8 => F.nan)
      = cubeIndex (Function.update (fun _ : Fin 8 => F.nan) 0 (F.fin 1)) ∧
    march_cube emptyTable (fun _ : Fin 8 => F.nan)
      = march_cube emptyTable (Function.update (fun _ : Fin 8 => F.nan) 0 (F.fin 1)) :=
  C10_nan_outside emptyTable (fun _ : Fin 8 => F.nan) 0 rfl
